import Mathlib

/-!
Shallow embedding of the STORM repository's constraint-formulation and
market-clearing layer (`src/model/helpers.py`, `src/model/constraint.py`,
`src/model/balancing.py`, `src/model/peaks.py`).

Conventions:
* Machine floats are modelled by `ℚ`; the float `nan` sentinel is modelled by
  `Option ℚ` with `none` playing the role of `nan` (so `nan / 10 = nan`
  becomes `Option.map (fun p => p / 10) none = none`).
* Time-slot labels (the `Time` column of the bid table, strings such as
  `POS_001`) are modelled by `Nat` through the order-embedding given by the
  lexicographic order on the label strings: the clearing algorithm only uses
  ordering, equality and grouping of labels, all preserved by the embedding.
* Pyomo constraint rules become `Prop`-valued definitions parameterised over
  the solution values (functions `Nat → ℚ` over timesteps); a feasible
  solution is one satisfying all the rules.  `po.Constraint.Skip` becomes
  `none` in an `Option Prop`-valued rule.
* `pandas.sort_values` with a list of two keys performs a stable
  lexicographic sort (it is implemented with a stable multi-key argsort);
  it is modelled by insertion sort with the lexicographic key, which is the
  canonical stable sorting algorithm.
-/

namespace STORM

/-! ### Market clearing (`helpers.py`, `market_clearing`) -/

/-- Direction field of a bid record (`Direction` column of the bid file). -/
inductive Direction where
  | GRID_TO_PROVIDER : Direction
  | PROVIDER_TO_GRID : Direction
deriving DecidableEq

/-- One row of the bid table: time-slot label, price `[EUR/MWh]`,
capacity `[MW]`, and direction. -/
structure Bid where
  time : Nat
  price : ℚ
  capacity : ℚ
  direction : Direction
deriving DecidableEq

/-- `bids.loc[bids['Direction'] == 'PROVIDER_TO_GRID', 'Price [EUR/MWh]'] *= -1`
(helpers.py line 128), applied to one row. -/
def adjustBid (b : Bid) : Bid :=
  match b.direction with
  | Direction.PROVIDER_TO_GRID => { b with price := -b.price }
  | Direction.GRID_TO_PROVIDER => b

/-- Sign adjustment applied to the whole bid table. -/
def adjustBids (bids : List Bid) : List Bid :=
  bids.map adjustBid

/-- Lexicographic sort key of `bids.sort_values(by=['Time', 'Price [EUR/MWh]'])`
(helpers.py line 138). -/
def bidLe (a b : Bid) : Prop :=
  a.time < b.time ∨ (a.time = b.time ∧ a.price ≤ b.price)

instance : DecidableRel bidLe := fun a b =>
  inferInstanceAs (Decidable (a.time < b.time ∨ (a.time = b.time ∧ a.price ≤ b.price)))

instance : IsTotal Bid bidLe where
  total a b := by
    rcases lt_trichotomy a.time b.time with h | h | h
    · exact Or.inl (Or.inl h)
    · rcases le_total a.price b.price with hp | hp
      · exact Or.inl (Or.inr ⟨h, hp⟩)
      · exact Or.inr (Or.inr ⟨h.symm, hp⟩)
    · exact Or.inr (Or.inl h)

instance : IsTrans Bid bidLe where
  trans a b c hab hbc := by
    rcases hab with hab | ⟨hab, hab'⟩
    · rcases hbc with hbc | ⟨hbc, _⟩
      · exact Or.inl (hab.trans hbc)
      · exact Or.inl (hbc ▸ hab)
    · rcases hbc with hbc | ⟨hbc, hbc'⟩
      · exact Or.inl (hab ▸ hbc)
      · exact Or.inr ⟨hab.trans hbc, hab'.trans hbc'⟩

/-- `bids_sorted = bids.sort_values(by=['Time', 'Price [EUR/MWh]'])`
(helpers.py line 138): stable lexicographic sort of the adjusted bid table. -/
def sortBids (bids : List Bid) : List Bid :=
  List.insertionSort bidLe bids

/-- Helper for `uniqueList`: drop the values seen before. -/
def uniqueAux (seen : List Nat) : List Nat → List Nat
  | [] => []
  | x :: xs => if x ∈ seen then uniqueAux seen xs else x :: uniqueAux (x :: seen) xs

/-- `pandas.Series.unique`: distinct values in order of first appearance
(helpers.py line 141 applies it to the sorted `Time` column). -/
def uniqueList (l : List Nat) : List Nat :=
  uniqueAux [] l

/-- The adjusted and sorted bid table used by the clearing loop. -/
def adjustedSorted (bids : List Bid) : List Bid :=
  sortBids (adjustBids bids)

/-- `times = bids_sorted['Time'].unique()` (helpers.py line 141). -/
def clearingTimes (bids : List Bid) : List Nat :=
  uniqueList ((adjustedSorted bids).map (fun b => b.time))

/-- `bids_t = bids_sorted[bids_sorted['Time'] == t]` (helpers.py line 151). -/
def slotBids (bids : List Bid) (t : Nat) : List Bid :=
  (adjustedSorted bids).filter (fun b => b.time == t)

/-- The accumulation loop of helpers.py lines 158-166: starting from the
cumulative capacity `cum`, walk the slot's sorted bids, add each capacity,
and return the price of the first bid whose cumulative capacity reaches the
demand; `none` (the `nan` sentinel) if the demand is never reached. -/
def clearSlot : List Bid → ℚ → ℚ → Option ℚ
  | [], _, _ => none
  | b :: rest, demand, cum =>
    if demand ≤ cum + b.capacity then some b.price
    else clearSlot rest demand (cum + b.capacity)

/-- The outer loop of helpers.py lines 149-171: for each time label in order,
clear the slot against `request[t_]` and store `clearing_price / 10` at
index `t_` of the result array. -/
def clearLoop (bids_sorted : List Bid) (request : List ℚ) :
    List Nat → Nat → List (Option ℚ) → List (Option ℚ)
  | [], _, acc => acc
  | t :: ts, t_, acc =>
    let bids_t := bids_sorted.filter (fun b => b.time == t)
    let demand_t := request.getD t_ 0
    let clearing_price := clearSlot bids_t demand_t 0
    clearLoop bids_sorted request ts (t_ + 1)
      (acc.set t_ (clearing_price.map (fun p => p / 10)))

/-- `np.add.reduceat(profile, np.arange(0, len(profile), 16))`
(helpers.py lines 119-121): the index list `arange(0, len, 16)` has
`(len + 15) / 16` entries `16 * j`, and entry `j` of the result is the sum of
the slice from index `16 * j` up to the next index (the end for the last
block), i.e. the sum of a block of (up to) 16 consecutive entries. -/
def reduceat16 (l : List ℚ) : List ℚ :=
  (List.range ((l.length + 15) / 16)).map (fun j => ((l.drop (16 * j)).take 16).sum)

/-- `market_clearing` (helpers.py lines 110-184), with the file reads replaced
by their contents: `request` is the `Data` column of the request file and
`bids` the rows of the bid file.  The result models `clearing_prices_np`, a
length-672 array initialised with `0.0` and filled slot by slot with the
cleared price divided by 10 (`none` models the `nan` under-supply sentinel). -/
def market_clearing (request : List ℚ) (bids : List Bid) : List (Option ℚ) :=
  clearLoop (adjustedSorted bids) request (clearingTimes bids) 0
    (List.replicate 672 (some 0))

/-! ### Constraint primitives (`constraint.py`) -/

/-- `ForceDuration.reach_rule` (constraint.py lines 92-97): the emitted
constraint at timestep `t`, `none` modelling `po.Constraint.Skip`. -/
def reach_rule (duration : Nat) (flow : Nat → ℚ) (t : Nat) : Option Prop :=
  if 0 < t ∧ t % duration ≠ 0 then some (flow t = flow (t - 1)) else none

/-- A solution satisfies the `ForceDuration` block over horizon `T` when every
emitted constraint holds. -/
def forceDurationFeasible (duration : Nat) (flow : Nat → ℚ) (T : Nat) : Prop :=
  ∀ t < T, ∀ P : Prop, reach_rule duration flow t = some P → P

/-- `self.big_M = self.params['batt_power'] * 100`
(constraint.py line 114). -/
def mutualExclusivityBigM (batt_power : ℚ) : ℚ :=
  batt_power * 100

/-- `MutualExclusivity.mutual_rule_one` (constraint.py lines 141-143) over
horizon `T`: `flow_one[t] <= big_M * mutual[t]`. -/
def mutual_rule_one (big_M : ℚ) (flow_one mutualVar : Nat → ℚ) (T : Nat) : Prop :=
  ∀ t < T, flow_one t ≤ big_M * mutualVar t

/-- `MutualExclusivity.mutual_rule_two` (constraint.py lines 147-149) over
horizon `T`: `flow_two[t] <= big_M * (1 - mutual[t])`. -/
def mutual_rule_two (big_M : ℚ) (flow_two mutualVar : Nat → ℚ) (T : Nat) : Prop :=
  ∀ t < T, flow_two t ≤ big_M * (1 - mutualVar t)

/-- A pyomo variable with `domain=po.Binary` takes values in `{0, 1}`. -/
def isBinaryVar (v : Nat → ℚ) (T : Nat) : Prop :=
  ∀ t < T, v t = 0 ∨ v t = 1

/-- A pyomo variable with `within=po.NonNegativeReals` is nonnegative. -/
def isNonNegVar (v : Nat → ℚ) (T : Nat) : Prop :=
  ∀ t < T, 0 ≤ v t

/-! ### FCR balancing component (`balancing.py`, class `FCR`) -/

/-- `FCR.multiplication_source_rule` (balancing.py lines 153-155):
`flow_source[t] == power_request_source[t] * activation_choice[t] * volume[t]
* bid_accept[t]`. -/
def multiplication_source_rule
    (power_request_source activation_choice volume bid_accept flow_source : Nat → ℚ)
    (T : Nat) : Prop :=
  ∀ t < T, flow_source t =
    power_request_source t * activation_choice t * volume t * bid_accept t

/-- `FCR.multiplication_sink_rule` (balancing.py lines 159-161):
`flow_sink[t] == power_request_sink[t] * activation_choice[t] * volume[t]
* bid_accept[t]`. -/
def multiplication_sink_rule
    (power_request_sink activation_choice volume bid_accept flow_sink : Nat → ℚ)
    (T : Nat) : Prop :=
  ∀ t < T, flow_sink t =
    power_request_sink t * activation_choice t * volume t * bid_accept t

/-! ### Peak shaving component (`peaks.py`, class `PeakShaving`) -/

/-- `PeakShaving.compute_supply_rule` (peaks.py lines 66-68):
`supply_power[t] == sum(flow[t] for flow in flow_list)`. -/
def compute_supply_rule (flow_list : List (Nat → ℚ)) (supply_power : Nat → ℚ)
    (T : Nat) : Prop :=
  ∀ t < T, supply_power t = (flow_list.map (fun flow => flow t)).sum

/-- `PeakShaving.total_supply_rule` (peaks.py lines 72-76):
`total_supply_power[t] == total_supply_power[t-1] + supply_power[t]` for
`t > 0` and `total_supply_power[0] == 0`. -/
def total_supply_rule (supply_power total_supply_power : Nat → ℚ) (T : Nat) : Prop :=
  ∀ t < T, total_supply_power t =
    if 0 < t then total_supply_power (t - 1) + supply_power t else 0

/-- `PeakShaving.copy_value_rule` (peaks.py lines 80-82):
`p_max[t] >= supply_power[t]`. -/
def copy_value_rule (supply_power p_max : Nat → ℚ) (T : Nat) : Prop :=
  ∀ t < T, supply_power t ≤ p_max t

/-- `PeakShaving.peak_value_rule` (peaks.py lines 86-90):
`p_max[t] >= p_max[t-1]` for `t > 0`, skipped at `t = 0`. -/
def peak_value_rule (p_max : Nat → ℚ) (T : Nat) : Prop :=
  ∀ t < T, 0 < t → p_max (t - 1) ≤ p_max t

/-! ### Concrete example inputs -/

/-- A bid table for slot 1: capacity 1 at price 5, capacity 30 at price 7. -/
def bidsC2 : List Bid :=
  [⟨1, 5, 1, Direction.GRID_TO_PROVIDER⟩, ⟨1, 7, 30, Direction.GRID_TO_PROVIDER⟩]

/-- A request profile whose first 4-hour block sums to 31 while its first
per-slot entry is 1. -/
def requestC2 : List ℚ :=
  [1, 2, 2, 2, 2, 2, 2, 2, 2, 2, 2, 2, 2, 2, 2, 2]

/-- A bid table with bids only at slot labels 1 and 3 (label 2 missing). -/
def bidsC10 : List Bid :=
  [⟨1, 5, 10, Direction.GRID_TO_PROVIDER⟩, ⟨3, 7, 10, Direction.GRID_TO_PROVIDER⟩]

/-! ### Lemmas about the clearing loop -/

lemma clearLoop_length (s : List Bid) (r : List ℚ) (ts : List Nat) :
    ∀ (k : Nat) (acc : List (Option ℚ)), (clearLoop s r ts k acc).length = acc.length := by
  induction ts with
  | nil => intro k acc; rfl
  | cons t' ts ih =>
    intro k acc
    simp only [clearLoop]
    rw [ih]
    simp

lemma clearLoop_getElem?_lt (s : List Bid) (r : List ℚ) (ts : List Nat) :
    ∀ (k : Nat) (acc : List (Option ℚ)) (j : Nat), j < k →
      (clearLoop s r ts k acc)[j]? = acc[j]? := by
  induction ts with
  | nil => intro k acc j _; rfl
  | cons t' ts ih =>
    intro k acc j hj
    simp only [clearLoop]
    rw [ih (k + 1) _ j (by omega)]
    exact List.getElem?_set_ne (by omega)

lemma clearLoop_getElem?_ge (s : List Bid) (r : List ℚ) (ts : List Nat) :
    ∀ (k : Nat) (acc : List (Option ℚ)) (j : Nat), k + ts.length ≤ j →
      (clearLoop s r ts k acc)[j]? = acc[j]? := by
  induction ts with
  | nil => intro k acc j _; rfl
  | cons t' ts ih =>
    intro k acc j hj
    simp only [List.length_cons] at hj
    simp only [clearLoop]
    rw [ih (k + 1) _ j (by omega)]
    exact List.getElem?_set_ne (by omega)

lemma clearLoop_getElem? (s : List Bid) (r : List ℚ) (ts : List Nat) :
    ∀ (k : Nat) (acc : List (Option ℚ)) (i t : Nat),
      ts[i]? = some t → k + i < acc.length →
      (clearLoop s r ts k acc)[k + i]? =
        some ((clearSlot (s.filter (fun b => b.time == t)) (r.getD (k + i) 0) 0).map
          (fun p => p / 10)) := by
  induction ts with
  | nil => intro k acc i t ht _; simp at ht
  | cons t' ts ih =>
    intro k acc i t ht hlen
    cases i with
    | zero =>
      have ht' : t' = t := by simpa using ht
      subst ht'
      simp only [clearLoop, Nat.add_zero] at hlen ⊢
      rw [clearLoop_getElem?_lt s r ts (k + 1) _ k (by omega)]
      exact List.getElem?_set_self (by simpa using hlen)
    | succ i =>
      have ht' : ts[i]? = some t := by simpa using ht
      have hk : k + (i + 1) = (k + 1) + i := by omega
      simp only [clearLoop]
      rw [hk]
      exact ih (k + 1) _ i t ht' (by simp; omega)

/-- The entry of the result array for the `i`-th cleared time label is the
slot's first-crossing price divided by 10 (`none` = `nan` when the demand is
never reached). -/
lemma market_clearing_getElem? (request : List ℚ) (bids : List Bid) (i t : Nat)
    (ht : (clearingTimes bids)[i]? = some t) (hi : i < 672) :
    (market_clearing request bids)[i]? =
      some ((clearSlot (slotBids bids t) (request.getD i 0) 0).map (fun p => p / 10)) := by
  have h := clearLoop_getElem? (adjustedSorted bids) request (clearingTimes bids) 0
    (List.replicate 672 (some 0)) i t ht (by rw [List.length_replicate]; omega)
  rw [Nat.zero_add] at h
  exact h

lemma market_clearing_length (request : List ℚ) (bids : List Bid) :
    (market_clearing request bids).length = 672 := by
  unfold market_clearing
  rw [clearLoop_length, List.length_replicate]

/-- Result entries at indices past the number of distinct time labels keep the
initialisation value `0.0`. -/
lemma market_clearing_getElem?_default (request : List ℚ) (bids : List Bid) (i : Nat)
    (hlen : (clearingTimes bids).length ≤ i) (hi : i < 672) :
    (market_clearing request bids)[i]? = some (some 0) := by
  unfold market_clearing
  rw [clearLoop_getElem?_ge _ _ _ 0 _ i (by omega)]
  rw [List.getElem?_replicate, if_pos hi]

/-! ### Lemmas about the bid sort -/

/-- The bids of one time-slot, read off the sorted table, are a permutation of
that slot's bids in the adjusted table (hence of the slot's submitted bids). -/
lemma slotBids_perm (bids : List Bid) (t : Nat) :
    (slotBids bids t).Perm ((adjustBids bids).filter (fun b => b.time == t)) := by
  exact (List.perm_insertionSort bidLe (adjustBids bids)).filter _

/-- The bids of one time-slot, read off the sorted table, are in ascending
order of (sign-adjusted) price. -/
lemma slotBids_sorted_price (bids : List Bid) (t : Nat) :
    (slotBids bids t).Pairwise (fun a b => a.price ≤ b.price) := by
  have hs : (adjustedSorted bids).Pairwise bidLe :=
    List.sorted_insertionSort bidLe (adjustBids bids)
  have hp : (slotBids bids t).Pairwise bidLe := hs.filter _
  refine hp.imp_of_mem ?_
  intro a b ha hb hle
  have ha' : a.time = t := by simpa using (List.of_mem_filter ha)
  have hb' : b.time = t := by simpa using (List.of_mem_filter hb)
  rcases hle with h | ⟨_, h⟩
  · rw [ha', hb'] at h
    exact absurd h (lt_irrefl t)
  · exact h

/-- Stability of the sort: inserting a bid commutes with filtering by any
predicate whose instances are pairwise `bidLe`-comparable. -/
lemma filter_orderedInsert (P : Bid → Bool)
    (hP : ∀ a b, P a = true → P b = true → bidLe a b) (b : Bid) :
    ∀ l : List Bid,
      (List.orderedInsert bidLe b l).filter P = ((b :: l).filter P)
  | [] => rfl
  | c :: l => by
    by_cases hbc : bidLe b c
    · simp [List.orderedInsert, hbc]
    · have heq : List.orderedInsert bidLe b (c :: l) =
          c :: List.orderedInsert bidLe b l := by
        simp [List.orderedInsert, hbc]
      rw [heq]
      by_cases hPc : P c
      · have hPb : P b = false := by
          by_contra hPb
          exact hbc (hP b c (by simpa using hPb) hPc)
        simp only [List.filter_cons, hPc, hPb, if_pos, Bool.false_eq_true, if_neg,
          filter_orderedInsert P hP b l]
        simp [hPb]
      · simp only [List.filter_cons, Bool.false_eq_true, hPc, if_neg,
          filter_orderedInsert P hP b l]
        simp [hPc]

/-- Stability of the sort: sorting commutes with filtering by any predicate
whose instances are pairwise `bidLe`-comparable (in particular, by one exact
(time, price) key), so the sorted table lists equal-key bids in submission
order. -/
lemma filter_sortBids (P : Bid → Bool)
    (hP : ∀ a b, P a = true → P b = true → bidLe a b) :
    ∀ l : List Bid, (sortBids l).filter P = l.filter P
  | [] => rfl
  | b :: l => by
    have : sortBids (b :: l) = List.orderedInsert bidLe b (sortBids l) := rfl
    rw [this, filter_orderedInsert P hP b (sortBids l)]
    simp only [List.filter_cons, filter_sortBids P hP l]

/-! ### Lemmas about the accumulation loop -/

/-- If no cumulative prefix of the slot's capacities reaches the demand, the
accumulation loop falls through and leaves the `nan` sentinel in place. -/
lemma clearSlot_eq_none :
    ∀ (l : List Bid) (demand cum : ℚ),
      (∀ k < l.length, cum + (((l.take (k + 1)).map (fun b => b.capacity)).sum) < demand) →
      clearSlot l demand cum = none
  | [], _, _, _ => rfl
  | b :: rest, demand, cum, h => by
    have h0 := h 0 (by simp)
    simp only [List.take, List.map_cons, List.map_nil, List.sum_cons, List.sum_nil,
      List.take_zero, add_zero] at h0
    rw [clearSlot, if_neg (by push_neg; linarith)]
    refine clearSlot_eq_none rest demand (cum + b.capacity) ?_
    intro k hk
    have hk' := h (k + 1) (by simp; omega)
    simp only [List.take_succ_cons, List.map_cons, List.sum_cons] at hk'
    linarith [hk']

/-- If the demand is at most the first bid's capacity contribution, the loop
stops at the first bid of the slot. -/
lemma clearSlot_cons_of_le (b : Bid) (rest : List Bid) (demand cum : ℚ)
    (h : demand ≤ cum + b.capacity) :
    clearSlot (b :: rest) demand cum = some b.price := by
  rw [clearSlot, if_pos h]

/-! ### Lemmas about the block aggregation -/

/-- Entry `j` of the 4-hour aggregate is the sum of the block of (up to) 16
consecutive entries starting at position `16 * j`. -/
lemma reduceat16_getElem? (j : Nat) (l : List ℚ) (h : 16 * j < l.length) :
    (reduceat16 l)[j]? = some (((l.drop (16 * j)).take 16).sum) := by
  unfold reduceat16
  rw [List.getElem?_map, List.getElem?_range (by omega)]
  rfl

/-! ### Lemmas about ForceDuration windows -/

/-- A constraint is emitted exactly at the timesteps `t` with `t > 0` and
`t mod duration ≠ 0`; at window boundaries the rule is `Skip`. -/
lemma reach_rule_isSome (duration : Nat) (flow : Nat → ℚ) (t : Nat) :
    (reach_rule duration flow t).isSome = true ↔ (0 < t ∧ t % duration ≠ 0) := by
  unfold reach_rule
  split <;> simp_all

lemma forceDuration_step (duration : Nat) (flow : Nat → ℚ) (T : Nat)
    (hf : forceDurationFeasible duration flow T) (t : Nat) (hT : t < T)
    (h0 : 0 < t) (hm : t % duration ≠ 0) : flow t = flow (t - 1) := by
  refine hf t hT (flow t = flow (t - 1)) ?_
  unfold reach_rule
  rw [if_pos ⟨h0, hm⟩]

lemma succ_div_of_mod (d t : Nat) (h : (t + 1) % d ≠ 0) : (t + 1) / d = t / d := by
  have hnd : ¬ d ∣ (t + 1) := fun hdvd => h (Nat.mod_eq_zero_of_dvd hdvd)
  rw [Nat.succ_div, if_neg hnd]
  rfl

/-- Inside one window of length `duration`, a feasible flow equals its value
at the window anchor `duration * (t / duration)`. -/
lemma forceDuration_window_base (duration : Nat) (flow : Nat → ℚ) (T : Nat)
    (hf : forceDurationFeasible duration flow T) :
    ∀ t, t < T → flow t = flow (duration * (t / duration)) := by
  intro t
  induction t with
  | zero => intro _; simp
  | succ t ih =>
    intro hT
    by_cases hm : (t + 1) % duration = 0
    · have hdvd : duration ∣ (t + 1) := Nat.dvd_of_mod_eq_zero hm
      rw [Nat.mul_div_cancel' hdvd]
    · have h1 : flow (t + 1) = flow t := by
        have := forceDuration_step duration flow T hf (t + 1) hT (Nat.succ_pos t) hm
        simpa using this
      rw [h1, ih (Nat.lt_of_succ_lt hT), succ_div_of_mod duration t hm]

/-! ### Claim theorems -/

/-- C1. For every time-slot processed with a non-empty list of bids, the
clearing price is the price of the first bid, in ascending order of
sign-adjusted price, at which the cumulative capacity reaches or exceeds the
slot's demand; in particular, for demand 0 the clearing price is the cheapest
bid's price (the first sorted row): the slot's bid list is the slot's
submitted bids arranged in ascending sign-adjusted price, the stored entry is
the accumulation loop's first-crossing price (divided by 10), and for demand 0
the loop stops at the first sorted row, whose price is minimal in the slot. -/
theorem market_clearing_first_crossing (request : List ℚ) (bids : List Bid) (i t : Nat)
    (ht : (clearingTimes bids)[i]? = some t) (hi : i < 672)
    (hcap : ∀ b ∈ slotBids bids t, 0 ≤ b.capacity) :
    (slotBids bids t).Perm ((adjustBids bids).filter (fun b => b.time == t)) ∧
    (slotBids bids t).Pairwise (fun a b => a.price ≤ b.price) ∧
    (market_clearing request bids)[i]? =
      some ((clearSlot (slotBids bids t) (request.getD i 0) 0).map (fun p => p / 10)) ∧
    (request.getD i 0 = 0 →
      ∀ b rest, slotBids bids t = b :: rest →
        clearSlot (slotBids bids t) (request.getD i 0) 0 = some b.price ∧
        ∀ c ∈ slotBids bids t, b.price ≤ c.price) := by
  refine ⟨slotBids_perm bids t, slotBids_sorted_price bids t,
    market_clearing_getElem? request bids i t ht hi, ?_⟩
  intro hd b rest hslot
  constructor
  · rw [hslot]
    apply clearSlot_cons_of_le
    have hb : b ∈ slotBids bids t := by
      rw [hslot]
      exact List.mem_cons_self b rest
    have := hcap b hb
    rw [hd]
    linarith
  · intro c hc
    have hp := slotBids_sorted_price bids t
    rw [hslot] at hp hc
    rcases List.mem_cons.mp hc with rfl | hc
    · exact le_refl _
    · exact (List.pairwise_cons.mp hp).1 c hc

/-- Witness for C1, on the spec's own example: demand 50 against the slot-1
stack [(price 10, cap 20), (price 20, cap 40)]. -/
theorem market_clearing_first_crossing_witness :
    ((clearingTimes [⟨1, 10, 20, Direction.GRID_TO_PROVIDER⟩,
        ⟨1, 20, 40, Direction.GRID_TO_PROVIDER⟩])[0]? = some 1 ∧ 0 < 672 ∧
      ∀ b ∈ slotBids [⟨1, 10, 20, Direction.GRID_TO_PROVIDER⟩,
        ⟨1, 20, 40, Direction.GRID_TO_PROVIDER⟩] 1, 0 ≤ b.capacity) ∧
    ((slotBids [⟨1, 10, 20, Direction.GRID_TO_PROVIDER⟩,
        ⟨1, 20, 40, Direction.GRID_TO_PROVIDER⟩] 1).Perm
      ((adjustBids [⟨1, 10, 20, Direction.GRID_TO_PROVIDER⟩,
        ⟨1, 20, 40, Direction.GRID_TO_PROVIDER⟩]).filter (fun b => b.time == 1)) ∧
     (slotBids [⟨1, 10, 20, Direction.GRID_TO_PROVIDER⟩,
        ⟨1, 20, 40, Direction.GRID_TO_PROVIDER⟩] 1).Pairwise
      (fun a b => a.price ≤ b.price) ∧
     (market_clearing [50] [⟨1, 10, 20, Direction.GRID_TO_PROVIDER⟩,
        ⟨1, 20, 40, Direction.GRID_TO_PROVIDER⟩])[0]? =
      some ((clearSlot (slotBids [⟨1, 10, 20, Direction.GRID_TO_PROVIDER⟩,
        ⟨1, 20, 40, Direction.GRID_TO_PROVIDER⟩] 1) (([50] : List ℚ).getD 0 0) 0).map
          (fun p => p / 10)) ∧
     (([50] : List ℚ).getD 0 0 = 0 →
      ∀ b rest, slotBids [⟨1, 10, 20, Direction.GRID_TO_PROVIDER⟩,
        ⟨1, 20, 40, Direction.GRID_TO_PROVIDER⟩] 1 = b :: rest →
        clearSlot (slotBids [⟨1, 10, 20, Direction.GRID_TO_PROVIDER⟩,
          ⟨1, 20, 40, Direction.GRID_TO_PROVIDER⟩] 1) (([50] : List ℚ).getD 0 0) 0 =
            some b.price ∧
        ∀ c ∈ slotBids [⟨1, 10, 20, Direction.GRID_TO_PROVIDER⟩,
          ⟨1, 20, 40, Direction.GRID_TO_PROVIDER⟩] 1, b.price ≤ c.price)) :=
  ⟨⟨by decide, by decide, by decide⟩,
    market_clearing_first_crossing [50]
      [⟨1, 10, 20, Direction.GRID_TO_PROVIDER⟩, ⟨1, 20, 40, Direction.GRID_TO_PROVIDER⟩]
      0 1 (by decide) (by decide) (by decide)⟩

/-- C4. A slot whose cumulative bid capacity never reaches the slot's demand
ends with the missing-value sentinel (`nan`, modelled `none`) as its clearing
price, and the algorithm returns normally: the result is still the full
length-672 array. -/
theorem market_clearing_undersupply (request : List ℚ) (bids : List Bid) (i t : Nat)
    (ht : (clearingTimes bids)[i]? = some t) (hi : i < 672)
    (hunder : ∀ k < (slotBids bids t).length,
      (((slotBids bids t).take (k + 1)).map (fun b => b.capacity)).sum < request.getD i 0) :
    (market_clearing request bids).length = 672 ∧
    (market_clearing request bids)[i]? = some none := by
  refine ⟨market_clearing_length request bids, ?_⟩
  rw [market_clearing_getElem? request bids i t ht hi]
  rw [clearSlot_eq_none (slotBids bids t) _ 0 ?_]
  · rfl
  · intro k hk
    have := hunder k hk
    linarith

/-- Witness for C4: one slot-1 bid of capacity 1 against demand 10. -/
theorem market_clearing_undersupply_witness :
    ((clearingTimes [⟨1, 5, 1, Direction.GRID_TO_PROVIDER⟩])[0]? = some 1 ∧ 0 < 672 ∧
      ∀ k < (slotBids [⟨1, 5, 1, Direction.GRID_TO_PROVIDER⟩] 1).length,
        (((slotBids [⟨1, 5, 1, Direction.GRID_TO_PROVIDER⟩] 1).take (k + 1)).map
          (fun b => b.capacity)).sum < ([10] : List ℚ).getD 0 0) ∧
    ((market_clearing [10] [⟨1, 5, 1, Direction.GRID_TO_PROVIDER⟩]).length = 672 ∧
     (market_clearing [10] [⟨1, 5, 1, Direction.GRID_TO_PROVIDER⟩])[0]? = some none) := by
  have hslot : slotBids [⟨1, 5, 1, Direction.GRID_TO_PROVIDER⟩] 1 =
      [⟨1, 5, 1, Direction.GRID_TO_PROVIDER⟩] := by decide
  have hunder : ∀ k < (slotBids [⟨1, 5, 1, Direction.GRID_TO_PROVIDER⟩] 1).length,
      (((slotBids [⟨1, 5, 1, Direction.GRID_TO_PROVIDER⟩] 1).take (k + 1)).map
        (fun b => b.capacity)).sum < ([10] : List ℚ).getD 0 0 := by
    intro k hk
    rw [hslot] at hk ⊢
    have hk0 : k = 0 := by
      simp only [List.length_cons, List.length_nil] at hk
      omega
    subst hk0
    norm_num
  exact ⟨⟨by decide, by decide, hunder⟩,
    market_clearing_undersupply [10] [⟨1, 5, 1, Direction.GRID_TO_PROVIDER⟩] 0 1
      (by decide) (by decide) hunder⟩

/-- C8. The sort used by the clearing algorithm is stable: for every exact
(time-slot, sign-adjusted price) key, the bids carrying that key appear in the
sorted table in exactly their submission order (the order of the adjusted bid
table), so submission order is the tie-break between equal-priced bids of one
slot. -/
theorem sortBids_stable (bids : List Bid) (t : Nat) (p : ℚ) :
    (adjustedSorted bids).filter (fun b => b.time == t && b.price == p) =
      (adjustBids bids).filter (fun b => b.time == t && b.price == p) := by
  refine filter_sortBids _ ?_ (adjustBids bids)
  intro a b ha hb
  simp only [Bool.and_eq_true, beq_iff_eq] at ha hb
  exact Or.inr ⟨ha.1.trans hb.1.symm, le_of_eq (ha.2.trans hb.2.symm)⟩

/-- Counterexample for C2: the demand threshold is NOT the 4-hour aggregate.
On `requestC2` the slot-0 4-hour total is 31, against which the crossing bid
would be the price-7 bid (stored as 7/10), yet the algorithm clears slot 0 at
the per-slot request 1, stopping at the price-5 bid (stored as 1/2 = 5/10). -/
theorem market_clearing_ignores_aggregate_cex :
    (clearingTimes bidsC2)[0]? = some 1 ∧
    (reduceat16 requestC2)[0]? = some 31 ∧
    (clearSlot (slotBids bidsC2 1) 31 0).map (fun p => p / 10) = some (7 / 10) ∧
    (market_clearing requestC2 bidsC2)[0]? = some (some (1 / 2)) ∧
    ((1 : ℚ) / 2) ≠ 7 / 10 := by
  have hslot : slotBids bidsC2 1 =
      [⟨1, 5, 1, Direction.GRID_TO_PROVIDER⟩, ⟨1, 7, 30, Direction.GRID_TO_PROVIDER⟩] := by
    decide
  refine ⟨by decide, ?_, ?_, ?_, by norm_num⟩
  · rw [reduceat16_getElem? 0 requestC2 (by decide)]
    norm_num [requestC2]
  · rw [hslot, clearSlot, if_neg (by norm_num),
      clearSlot_cons_of_le _ _ _ _ (by norm_num)]
    norm_num
  · rw [market_clearing_getElem? requestC2 bidsC2 0 1 (by decide) (by decide)]
    rw [hslot, show requestC2.getD 0 0 = 1 by norm_num [requestC2]]
    rw [clearSlot_cons_of_le _ _ _ _ (by norm_num)]
    norm_num

/-- C2 (amended). The algorithm does compute the 4-hour aggregate of the
per-slot request (sums over 16 consecutive steps), but the demand threshold
compared against the cumulative bid capacity of slot `i` is the slot's own
per-slot request entry `request[i]`, not the 4-hour total. -/
theorem market_clearing_aggregation (request : List ℚ) (bids : List Bid) :
    (∀ j : Nat, 16 * j < request.length →
      (reduceat16 request)[j]? = some (((request.drop (16 * j)).take 16).sum)) ∧
    (∀ i t : Nat, (clearingTimes bids)[i]? = some t → i < 672 →
      (market_clearing request bids)[i]? =
        some ((clearSlot (slotBids bids t) (request.getD i 0) 0).map (fun p => p / 10))) :=
  ⟨fun j hj => reduceat16_getElem? j request hj,
   fun i t ht hi => market_clearing_getElem? request bids i t ht hi⟩

/-- Witness for C2 (amended), at block 0 of `requestC2` and slot 0 of
`bidsC2`. -/
theorem market_clearing_aggregation_witness :
    (16 * 0 < requestC2.length ∧ (clearingTimes bidsC2)[0]? = some 1 ∧ 0 < 672) ∧
    (reduceat16 requestC2)[0]? = some (((requestC2.drop (16 * 0)).take 16).sum) ∧
    (market_clearing requestC2 bidsC2)[0]? =
      some ((clearSlot (slotBids bidsC2 1) (requestC2.getD 0 0) 0).map (fun p => p / 10)) :=
  ⟨⟨by decide, by decide, by decide⟩,
   (market_clearing_aggregation requestC2 bidsC2).1 0 (by decide),
   (market_clearing_aggregation requestC2 bidsC2).2 0 1 (by decide) (by decide)⟩

/-- Counterexample for C10: a slot index whose canonical time-slot label is
missing from the bid table CAN be visited by the clearing loop.  With bids
only at labels 1 and 3 (slot labels 1, 2, 3), index 1 - whose label 2 appears
in no bid - receives label 3's clearing price 7/10 ≠ 0.0, because the loop
assigns positions by order of the labels present, not by label value. -/
theorem market_clearing_missing_label_cex :
    (∀ b ∈ bidsC10, b.time ≠ 2) ∧
    (market_clearing [1, 1, 1] bidsC10)[1]? = some (some (7 / 10)) ∧
    ((7 : ℚ) / 10) ≠ 0 := by
  refine ⟨by decide, ?_, by norm_num⟩
  rw [market_clearing_getElem? [1, 1, 1] bidsC10 1 3 (by decide) (by decide)]
  rw [show slotBids bidsC10 3 = [⟨3, 7, 10, Direction.GRID_TO_PROVIDER⟩] by decide]
  rw [show ([1, 1, 1] : List ℚ).getD 1 0 = 1 by norm_num]
  rw [clearSlot_cons_of_le _ _ _ _ (by norm_num)]
  norm_num

/-- C10 (amended). The algorithm returns an array of fixed length 672
initialised to 0.0, and every index at or beyond the number of distinct time
labels in the bid table is never visited by the clearing loop, so its entry
stays 0.0 (not the `nan` sentinel); an absent label does not leave its own
slot at 0.0 but shifts the later labels' prices to earlier indices. -/
theorem market_clearing_untouched_tail (request : List ℚ) (bids : List Bid) (i : Nat)
    (hlen : (clearingTimes bids).length ≤ i) (hi : i < 672) :
    (market_clearing request bids).length = 672 ∧
    (market_clearing request bids)[i]? = some (some 0) :=
  ⟨market_clearing_length request bids,
   market_clearing_getElem?_default request bids i hlen hi⟩

/-- Witness for C10 (amended): with an empty bid table every index below 672
keeps the initialisation value. -/
theorem market_clearing_untouched_tail_witness :
    ((clearingTimes ([] : List Bid)).length ≤ 5 ∧ 5 < 672) ∧
    ((market_clearing [1] ([] : List Bid)).length = 672 ∧
     (market_clearing [1] ([] : List Bid))[5]? = some (some 0)) :=
  ⟨⟨by decide, by decide⟩,
   market_clearing_untouched_tail [1] [] 5 (by decide) (by decide)⟩

/-- C3. The FCR multiplication constraints force
`flow = request * activation * volume * accept` at every timestep (source and
sink); hence in any feasible solution, at a timestep with `activation = 1` and
`accept = 1` the flow equals request times volume, and with `activation = 0`
the flow is 0 regardless of the volume. -/
theorem fcr_bilinear_flows (power_request_source power_request_sink activation_choice
    volume bid_accept flow_source flow_sink : Nat → ℚ) (T : Nat)
    (hsrc : multiplication_source_rule power_request_source activation_choice volume
      bid_accept flow_source T)
    (hsink : multiplication_sink_rule power_request_sink activation_choice volume
      bid_accept flow_sink T) :
    ∀ t < T,
      (flow_source t =
        power_request_source t * activation_choice t * volume t * bid_accept t) ∧
      (flow_sink t =
        power_request_sink t * activation_choice t * volume t * bid_accept t) ∧
      (activation_choice t = 1 → bid_accept t = 1 →
        flow_source t = power_request_source t * volume t ∧
        flow_sink t = power_request_sink t * volume t) ∧
      (activation_choice t = 0 → flow_source t = 0 ∧ flow_sink t = 0) := by
  intro t ht
  refine ⟨hsrc t ht, hsink t ht, ?_, ?_⟩
  · intro ha hb
    constructor
    · rw [hsrc t ht, ha, hb]
      ring
    · rw [hsink t ht, ha, hb]
      ring
  · intro ha
    constructor
    · rw [hsrc t ht, ha]
      ring
    · rw [hsink t ht, ha]
      ring

/-- Witness for C3: request 3 (source) and 4 (sink), activation 1, volume 2,
acceptance 1, flows 6 and 8, one timestep. -/
theorem fcr_bilinear_flows_witness :
    (multiplication_source_rule (fun _ => 3) (fun _ => 1) (fun _ => 2) (fun _ => 1)
        (fun _ => 6) 1 ∧
     multiplication_sink_rule (fun _ => 4) (fun _ => 1) (fun _ => 2) (fun _ => 1)
        (fun _ => 8) 1) ∧
    (∀ t < 1,
      ((fun _ : Nat => (6 : ℚ)) t =
        (fun _ : Nat => (3 : ℚ)) t * (fun _ : Nat => (1 : ℚ)) t *
        (fun _ : Nat => (2 : ℚ)) t * (fun _ : Nat => (1 : ℚ)) t) ∧
      ((fun _ : Nat => (8 : ℚ)) t =
        (fun _ : Nat => (4 : ℚ)) t * (fun _ : Nat => (1 : ℚ)) t *
        (fun _ : Nat => (2 : ℚ)) t * (fun _ : Nat => (1 : ℚ)) t) ∧
      ((fun _ : Nat => (1 : ℚ)) t = 1 → (fun _ : Nat => (1 : ℚ)) t = 1 →
        (fun _ : Nat => (6 : ℚ)) t = (fun _ : Nat => (3 : ℚ)) t * (fun _ : Nat => (2 : ℚ)) t ∧
        (fun _ : Nat => (8 : ℚ)) t = (fun _ : Nat => (4 : ℚ)) t * (fun _ : Nat => (2 : ℚ)) t) ∧
      ((fun _ : Nat => (1 : ℚ)) t = 0 →
        (fun _ : Nat => (6 : ℚ)) t = 0 ∧ (fun _ : Nat => (8 : ℚ)) t = 0)) :=
  ⟨⟨by intro t ht; norm_num, by intro t ht; norm_num⟩,
   fcr_bilinear_flows (fun _ => 3) (fun _ => 4) (fun _ => 1) (fun _ => 2) (fun _ => 1)
     (fun _ => 6) (fun _ => 8) 1
     (by intro t ht; norm_num) (by intro t ht; norm_num)⟩

/-- C5. For a `ForceDuration` block with duration `D > 0`, an equality
`var[t] == var[t-1]` is emitted exactly for the timesteps `t > 0` with
`t mod D ≠ 0` and no constraint is emitted at window boundaries; feasible
solutions are exactly the assignments that are constant on each window of
length `D` anchored at multiples of `D` (same window index `t / D`). -/
theorem forceDuration_characterisation (duration : Nat) (flow : Nat → ℚ) (T : Nat)
    (hd : 0 < duration) :
    (∀ t : Nat, (reach_rule duration flow t).isSome = true ↔ (0 < t ∧ t % duration ≠ 0)) ∧
    (forceDurationFeasible duration flow T ↔
      ∀ s t : Nat, s < T → t < T → s / duration = t / duration → flow s = flow t) := by
  refine ⟨reach_rule_isSome duration flow, ⟨?_, ?_⟩⟩
  · intro hf s t hs htT hw
    have h1 := forceDuration_window_base duration flow T hf s hs
    have h2 := forceDuration_window_base duration flow T hf t htT
    rw [h1, h2, hw]
  · intro hw t htT P hP
    unfold reach_rule at hP
    by_cases hc : 0 < t ∧ t % duration ≠ 0
    · rw [if_pos hc] at hP
      injection hP with hPP
      obtain ⟨h0, hm⟩ := hc
      have ht1 : t - 1 < T := by omega
      have hdiv : t / duration = (t - 1) / duration := by
        obtain ⟨u, rfl⟩ : ∃ u, t = u + 1 := ⟨t - 1, by omega⟩
        simp only [Nat.add_sub_cancel]
        exact succ_div_of_mod duration u hm
      exact hPP ▸ (hw t (t - 1) htT ht1 hdiv)
    · rw [if_neg hc] at hP
      cases hP

/-- Witness for C5: duration 2 over horizon 4, with a flow constant on the
windows {0, 1} and {2, 3}. -/
theorem forceDuration_characterisation_witness :
    0 < 2 ∧
    ((∀ t : Nat,
        (reach_rule 2 (fun u => if u < 2 then (3 : ℚ) else 7) t).isSome = true ↔
          (0 < t ∧ t % 2 ≠ 0)) ∧
     (forceDurationFeasible 2 (fun u => if u < 2 then (3 : ℚ) else 7) 4 ↔
       ∀ s t : Nat, s < 4 → t < 4 → s / 2 = t / 2 →
         (fun u => if u < 2 then (3 : ℚ) else 7) s =
           (fun u => if u < 2 then (3 : ℚ) else 7) t)) :=
  ⟨by decide,
   forceDuration_characterisation 2 (fun u => if u < 2 then (3 : ℚ) else 7) 4 (by decide)⟩

/-- C6. Under the two MutualExclusivity constraints, with the shared variable
binary, both flows nonnegative and a positive big-M, at most one of the two
flows is strictly positive at any timestep: their product is 0. -/
theorem mutualExclusivity_disjoint (big_M : ℚ) (flow_one flow_two mutualVar : Nat → ℚ)
    (T : Nat) (hM : 0 < big_M) (hbin : isBinaryVar mutualVar T)
    (h1 : isNonNegVar flow_one T) (h2 : isNonNegVar flow_two T)
    (hc1 : mutual_rule_one big_M flow_one mutualVar T)
    (hc2 : mutual_rule_two big_M flow_two mutualVar T) :
    ∀ t < T, flow_one t * flow_two t = 0 := by
  intro t ht
  rcases hbin t ht with h | h
  · have hle := hc1 t ht
    rw [h, mul_zero] at hle
    have hz : flow_one t = 0 := le_antisymm hle (h1 t ht)
    rw [hz, zero_mul]
  · have hle := hc2 t ht
    rw [h] at hle
    rw [show big_M * ((1 : ℚ) - 1) = 0 by ring] at hle
    have hz : flow_two t = 0 := le_antisymm hle (h2 t ht)
    rw [hz, mul_zero]

/-- Witness for C6: big-M 100, flows 5 and 0, selector 1, one timestep. -/
theorem mutualExclusivity_disjoint_witness :
    ((0 : ℚ) < 100 ∧
     isBinaryVar (fun _ => 1) 1 ∧
     isNonNegVar (fun _ => 5) 1 ∧ isNonNegVar (fun _ => 0) 1 ∧
     mutual_rule_one 100 (fun _ => 5) (fun _ => 1) 1 ∧
     mutual_rule_two 100 (fun _ => 0) (fun _ => 1) 1) ∧
    (∀ t < 1, (fun _ : Nat => (5 : ℚ)) t * (fun _ : Nat => (0 : ℚ)) t = 0) :=
  ⟨⟨by norm_num,
    by intro t ht; exact Or.inr rfl,
    by intro t ht; norm_num,
    by intro t ht; norm_num,
    by intro t ht; norm_num,
    by intro t ht; norm_num⟩,
   mutualExclusivity_disjoint 100 (fun _ => 5) (fun _ => 0) (fun _ => 1) 1
     (by norm_num)
     (by intro t ht; exact Or.inr rfl)
     (by intro t ht; norm_num)
     (by intro t ht; norm_num)
     (by intro t ht; norm_num)
     (by intro t ht; norm_num)⟩

/-- C7. In every feasible solution of the PeakShaving constraints, the peak
tracker is non-decreasing over the horizon and dominates the grid supply at
every timestep (indeed every earlier supply), where the supply equals the sum
of all grid-import flows in the flow list. -/
theorem peakShaving_tracker (flow_list : List (Nat → ℚ)) (supply_power p_max : Nat → ℚ)
    (T : Nat)
    (hsup : compute_supply_rule flow_list supply_power T)
    (hcopy : copy_value_rule supply_power p_max T)
    (hpeak : peak_value_rule p_max T) :
    (∀ s t : Nat, s ≤ t → t < T → p_max s ≤ p_max t) ∧
    (∀ t < T, supply_power t ≤ p_max t) ∧
    (∀ s t : Nat, s ≤ t → t < T → supply_power s ≤ p_max t) ∧
    (∀ t < T, supply_power t = (flow_list.map (fun flow => flow t)).sum) := by
  have mono : ∀ s t : Nat, s ≤ t → t < T → p_max s ≤ p_max t := by
    intro s t
    induction t with
    | zero =>
      intro hst _
      have hs0 : s = 0 := Nat.le_zero.mp hst
      rw [hs0]
    | succ t ih =>
      intro hst hT
      rcases Nat.eq_or_lt_of_le hst with heq | hlt
      · rw [heq]
      · have h1 : p_max s ≤ p_max t := ih (by omega) (by omega)
        have h2 := hpeak (t + 1) hT (Nat.succ_pos t)
        simp only [Nat.add_sub_cancel] at h2
        exact le_trans h1 h2
  refine ⟨mono, fun t ht => hcopy t ht, ?_, fun t ht => hsup t ht⟩
  intro s t hst htT
  exact le_trans (hcopy s (by omega)) (mono s t hst htT)

/-- Witness for C7: two import flows 1 and 2, supply 3, peak tracker 3, over
two timesteps. -/
theorem peakShaving_tracker_witness :
    (compute_supply_rule [fun _ => 1, fun _ => 2] (fun _ => 3) 2 ∧
     copy_value_rule (fun _ => 3) (fun _ => 3) 2 ∧
     peak_value_rule (fun _ => 3) 2) ∧
    ((∀ s t : Nat, s ≤ t → t < 2 →
        (fun _ : Nat => (3 : ℚ)) s ≤ (fun _ : Nat => (3 : ℚ)) t) ∧
     (∀ t < 2, (fun _ : Nat => (3 : ℚ)) t ≤ (fun _ : Nat => (3 : ℚ)) t) ∧
     (∀ s t : Nat, s ≤ t → t < 2 →
        (fun _ : Nat => (3 : ℚ)) s ≤ (fun _ : Nat => (3 : ℚ)) t) ∧
     (∀ t < 2, (fun _ : Nat => (3 : ℚ)) t =
        (([fun _ => 1, fun _ => 2] : List (Nat → ℚ)).map (fun flow => flow t)).sum)) :=
  ⟨⟨by intro t ht; norm_num,
    by intro t ht; norm_num,
    by intro t ht h0; norm_num⟩,
   peakShaving_tracker [fun _ => 1, fun _ => 2] (fun _ => 3) (fun _ => 3) 2
     (by intro t ht; norm_num)
     (by intro t ht; norm_num)
     (by intro t ht h0; norm_num)⟩

/-- C9. In every feasible solution of the PeakShaving constraints,
`total_supply_power[0]` is forced to 0 regardless of `supply_power[0]`, and
`total_supply_power[t] = total_supply_power[t-1] + supply_power[t]` for
`t > 0`; hence the cumulative supply equals the sum of `supply_power` over
timesteps 1..t, never including the first timestep's supply. -/
theorem peakShaving_total_supply (supply_power total_supply_power : Nat → ℚ) (T : Nat)
    (htot : total_supply_rule supply_power total_supply_power T) :
    (0 < T → total_supply_power 0 = 0) ∧
    (∀ t < T, total_supply_power t = ∑ u in Finset.range t, supply_power (u + 1)) := by
  have main : ∀ t < T, total_supply_power t = ∑ u in Finset.range t, supply_power (u + 1) := by
    intro t
    induction t with
    | zero =>
      intro hT
      have h := htot 0 hT
      simpa using h
    | succ t ih =>
      intro hT
      have h := htot (t + 1) hT
      rw [if_pos (Nat.succ_pos t)] at h
      simp only [Nat.add_sub_cancel] at h
      rw [h, ih (by omega), Finset.sum_range_succ]
  exact ⟨fun hT => main 0 hT, main⟩

/-- Witness for C9: supply 2 at every step, cumulative totals 0 then 2, over
two timesteps. -/
theorem peakShaving_total_supply_witness :
    total_supply_rule (fun _ => 2) (fun t => if t = 0 then 0 else 2) 2 ∧
    ((0 < 2 → (fun t : Nat => if t = 0 then (0 : ℚ) else 2) 0 = 0) ∧
     (∀ t < 2, (fun t : Nat => if t = 0 then (0 : ℚ) else 2) t =
        ∑ u in Finset.range t, (fun _ : Nat => (2 : ℚ)) (u + 1))) :=
  ⟨by
    intro t ht
    interval_cases t <;> norm_num,
   peakShaving_total_supply (fun _ => 2) (fun t => if t = 0 then 0 else 2) 2
     (by intro t ht; interval_cases t <;> norm_num)⟩

end STORM
